import Mathlib

/-!
Verification of the `utility-rack` marshalling layer and `wait_queue` against its
natural-language specification.

The embedding models:
* `src/include/marshall/extract_append.hpp` — endian detection, `append_val` /
  `extract_val` (the per-size `swap` / `noswap` copy loops), and the MQTT-style
  variable length integer codec `append_var_int` / `extract_var_int`;
* `src/include/marshall/byte_swap.hpp` — the vestigial copy of `detect_big_endian`;
* `src/include/marshall/marshall.hpp` — `marshall` overloads (arithmetic, `bool`,
  `std::optional`) and `fixed_size_byte_array`;
* `chops::wait_queue` — whose header is not present in the source tree (only its
  tests and demos are); it is modelled from the specification, section 4.1.

Machine integers are modelled as `Nat` with explicit reduction modulo `2^w`;
a byte is a `Nat` below 256; a byte buffer is a `List Nat`.  Host endianness is a
`Bool` parameter (`true` = big-endian): the byte layout that C++ code observes
through `cast_ptr_to<std::byte>(&val)` is made explicit via `native_bytes`.
-/

namespace chops

/-- Little-endian byte decomposition of a value into `n` bytes: byte 0 is the least
significant.  This is the in-memory layout of an `n`-byte unsigned integer on a
little-endian host. -/
def toBytesLE : Nat → Nat → List Nat
  | 0, _ => []
  | n + 1, v => (v % 256) :: toBytesLE n (v / 256)

/-- Big-endian byte decomposition: most significant byte first (network order). -/
def toBytesBE (n v : Nat) : List Nat :=
  (toBytesLE n v).reverse

/-- Recompose a value from little-endian bytes. -/
def fromBytesLE : List Nat → Nat
  | [] => 0
  | b :: rest => b + 256 * fromBytesLE rest

/-- Recompose a value from big-endian bytes. -/
def fromBytesBE (l : List Nat) : Nat :=
  fromBytesLE l.reverse

/-- The bytes seen at `cast_ptr_to<std::byte>(&val)` for an `n`-byte unsigned value
`v` on a host of the given endianness (`big = true` means big-endian). -/
def native_bytes (big : Bool) (n v : Nat) : List Nat :=
  if big then toBytesBE n v else toBytesLE n v

/-- Reinterpret `n` raw bytes as an unsigned value in the host's native endianness
(the value whose object representation those bytes are). -/
def native_val (big : Bool) (l : List Nat) : Nat :=
  if big then fromBytesBE l else fromBytesLE l

/-- The `noswap` copy loops of `extract_append.hpp` (`extract_val_noswap` /
`append_val_noswap`, unrolled per size in the source): `*(dst+i) = *(src+i)` for
`i < n`. -/
def copy_noswap (n : Nat) (p : List Nat) : List Nat :=
  (List.range n).map (fun i => p.getD i 0)

/-- The `swap` copy loops of `extract_append.hpp` (`extract_val_swap` /
`append_val_swap`, unrolled per size in the source): `*(dst+i) = *(src+(n-1-i))`
for `i < n`. -/
def copy_swap (n : Nat) (p : List Nat) : List Nat :=
  (List.range n).map (fun i => p.getD (n - 1 - i) 0)

/-- The size restriction of `detail::assert_size` in `extract_append.hpp`:
`sizeof(T)` must be 1, 2, 4, 8 or 16. -/
def size_supported (n : Nat) : Bool :=
  (n == 1) || (n == 2) || (n == 4) || (n == 8) || (n == 16)

/-- Model of `chops::append_val` (`extract_append.hpp`, lines 388-396): the bytes
written at `buf` and the returned byte count.  On a big-endian host the native
layout is copied via the `noswap` loop, otherwise via the `swap` loop. -/
def append_val (big : Bool) (n v : Nat) : List Nat × Nat :=
  let p := native_bytes big n v
  (if big then copy_noswap n p else copy_swap n p, n)

/-- Model of `chops::extract_val<T>` (`extract_append.hpp`, lines 360-368): the
buffer bytes are copied (via `noswap` on a big-endian host, `swap` otherwise) into
the object representation of a temporary, which is then read natively. -/
def extract_val (big : Bool) (n : Nat) (buf : List Nat) : Nat :=
  native_val big (if big then copy_noswap n buf else copy_swap n buf)

/-- Model of `chops::detect_big_endian` in `extract_append.hpp` (lines 328-331):
store `0xDDCCBBAA` in a `std::uint32_t` and compare the byte at offset 3 of its
object representation with `0xAA`. -/
def detect_big_endian (big : Bool) : Bool :=
  (native_bytes big 4 0xDDCCBBAA).getD 3 0 == 0xAA

/-- Model of the `chops::detect_big_endian` copy in `byte_swap.hpp` (lines
128-131): same stored pattern, but the byte at offset 3 is compared with `0xDD`. -/
def detect_big_endian_byte_swap (big : Bool) : Bool :=
  (native_bytes big 4 0xDDCCBBAA).getD 3 0 == 0xDD

/-!
Variable length integer codec (`extract_append.hpp`, lines 430-449 and 464-480).

`append_var_int` is a `while (val > 127)` loop; it is modelled with an explicit
iteration bound (`fuel`).  Since `val` strictly decreases (`val >>= 7` with
`val > 127`), `fuel = val` always suffices, and the definition below reduces by
kernel computation on concrete inputs.
-/

/-- The loop of `chops::append_var_int`, with an explicit iteration bound:
while `val > 127` emit `(val & 127) | 128` and shift `val` right by 7; finally
emit `val & 127`. -/
def append_var_int_aux : Nat → Nat → List Nat
  | 0, val => [val &&& 127]
  | fuel + 1, val =>
    if val > 127 then ((val &&& 127) ||| 128) :: append_var_int_aux fuel (val >>> 7)
    else [val &&& 127]

/-- Model of `chops::append_var_int`: the sequence of bytes written to `output`
(its length is the returned byte count).  The value parameter is an unsigned
integer of any width, so it is modelled as a plain `Nat`. -/
def append_var_int (val : Nat) : List Nat :=
  append_var_int_aux val val

/-- Two's-complement reinterpretation of a 32-bit pattern as a C `int`: the value
of `(int)` arithmetic results on the (universal) 32-bit-`int` platforms the
library targets. -/
def toInt32 (n : Nat) : Int :=
  if n % 4294967296 < 2147483648 then ((n % 4294967296 : Nat) : Int)
  else ((n % 4294967296 : Nat) : Int) - 4294967296

/-- The C expression `(input_ptr[i] & 127) << (7 * i)` from `extract_var_int`:
`input_ptr[i]` is a `std::uint8_t`, promoted to (32-bit) `int` before the shift,
so the result is a 32-bit signed value.  (For `7 * i ≥ 32` the C shift is
undefined behaviour; the theorems below only evaluate it at defined points,
where `7 * i ≤ 28`.) -/
def var_int_term (b i : Nat) : Int :=
  toInt32 ((b &&& 127) <<< (7 * i))

/-- C conversion of an `int` to `std::uint64_t` (modular, so negative values are
sign-extended). -/
def to_uint64 (x : Int) : Nat :=
  (x % (18446744073709551616 : Int)).toNat

/-- C conversion of an `int` to `std::uint32_t` (modular). -/
def to_uint32 (x : Int) : Nat :=
  (x % (4294967296 : Int)).toNat

/-- The loop of `chops::extract_var_int<std::uint64_t>`: for each input byte,
`ret |= (input_ptr[i] & 127) << (7 * i)` (the `int` term converted to
`std::uint64_t`), breaking after the first byte whose continuation bit (128) is
clear. -/
def extract_var_int_u64_loop : List Nat → Nat → Nat → Nat
  | [], _, ret => ret
  | b :: rest, i, ret =>
    let r := ret ||| to_uint64 (var_int_term b i)
    if b &&& 128 == 0 then r else extract_var_int_u64_loop rest (i + 1) r

/-- Model of `chops::extract_var_int<std::uint64_t>` applied to `input_size`
bytes (the list holds exactly the `input_size` bytes passed). -/
def extract_var_int_u64 (input : List Nat) : Nat :=
  extract_var_int_u64_loop input 0 0

/-- The loop of `chops::extract_var_int<std::uint32_t>`: as for the 64-bit
instance, but the `int` term is converted to `std::uint32_t`. -/
def extract_var_int_u32_loop : List Nat → Nat → Nat → Nat
  | [], _, ret => ret
  | b :: rest, i, ret =>
    let r := (ret ||| to_uint32 (var_int_term b i)) % 4294967296
    if b &&& 128 == 0 then r else extract_var_int_u32_loop rest (i + 1) r

/-- Model of `chops::extract_var_int<std::uint32_t>`. -/
def extract_var_int_u32 (input : List Nat) : Nat :=
  extract_var_int_u32_loop input 0 0

/-!
The compile-time type restriction of `extract_val` / `append_val`
(`extract_append.hpp`, lines 305-320).  C++ types are modelled by an enumeration
covering the fundamental arithmetic types, `std::byte`, and a representative
non-arithmetic class type; the standard type traits `std::is_integral` /
`std::is_floating_point` / `std::is_arithmetic` and LP64 `sizeof` values are
spelled out on it.
-/

/-- Enumeration of C++ types relevant to the codec's compile-time restriction. -/
inductive cpp_type : Type
  | tbool | tchar | tschar | tuchar | tshort | tushort | tint | tuint
  | tlong | tulong | tllong | tullong
  | tfloat | tdouble | tldouble
  | tbyte
  | tstruct
deriving DecidableEq

/-- The C++ trait `std::is_integral` on the modelled types.  `std::byte` is a
scoped enumeration, not an integral type. -/
def is_integral : cpp_type → Bool
  | .tbool | .tchar | .tschar | .tuchar | .tshort | .tushort | .tint | .tuint
  | .tlong | .tulong | .tllong | .tullong => true
  | _ => false

/-- The C++ trait `std::is_floating_point` on the modelled types. -/
def is_floating_point : cpp_type → Bool
  | .tfloat | .tdouble | .tldouble => true
  | _ => false

/-- The C++ trait `std::is_arithmetic`: integral or floating-point. -/
def is_arithmetic (t : cpp_type) : Bool :=
  is_integral t || is_floating_point t

/-- Model of `chops::detail::is_arithmetic_or_byte` (`extract_append.hpp`, lines
311-314): `std::is_arithmetic_v<T> || std::is_same_v<std::remove_cv_t<T>, std::byte>`. -/
def is_arithmetic_or_byte (t : cpp_type) : Bool :=
  is_arithmetic t || t == cpp_type.tbyte

/-- LP64 `sizeof` for the modelled types (the platforms the library targets);
the exact value for the class type is irrelevant to the theorems. -/
def sizeof_t : cpp_type → Nat
  | .tbool | .tchar | .tschar | .tuchar | .tbyte => 1
  | .tshort | .tushort => 2
  | .tint | .tuint | .tfloat => 4
  | .tlong | .tulong | .tllong | .tullong | .tdouble => 8
  | .tldouble => 16
  | .tstruct => 32

/-- Whether an instantiation of `extract_val<T>` / `append_val<T>` passes both
`static_assert` guards, `detail::assert_size<T>` and
`detail::assert_arithmetic_or_byte<T>` (`extract_append.hpp`, lines 360-368 and
388-396): this is the whole compile-time restriction, there is no runtime check. -/
def extract_append_compiles (t : cpp_type) : Bool :=
  size_supported (sizeof_t t) && is_arithmetic_or_byte t

/-!
The marshalling façade (`marshall.hpp`).  A buffer is a `List Nat` of bytes; the
`Buf` contract (`size` / `resize` / `data`) reduces to appending bytes at the old
size.  The host endianness parameter is threaded through, since the façade calls
`append_val`.
-/

/-- Model of the arithmetic `marshall` overload (`marshall.hpp`, lines 278-284):
grow the buffer by `sizeof(CastValType)` and `append_val` the value, cast to the
wire type (`w` bytes wide), at the old size. -/
def marshall_arith (big : Bool) (w v : Nat) (buf : List Nat) : List Nat :=
  buf ++ (append_val big w (v % 256 ^ w)).1

/-- Model of the `bool` `marshall` overload (`marshall.hpp`, lines 334-337):
marshall `1` or `0` in the chosen wire width. -/
def marshall_bool (big : Bool) (w : Nat) (b : Bool) (buf : List Nat) : List Nat :=
  marshall_arith big w (if b then 1 else 0) buf

/-- Model of the `std::optional` `marshall` overload (`marshall.hpp`, lines
340-352) for an arithmetic payload: marshall `has_value()` as a bool in the
presence width `wb`, then, only if the value is present, marshall the payload in
width `wv`. -/
def marshall_optional (big : Bool) (wb wv : Nat) (v : Option Nat) (buf : List Nat) :
    List Nat :=
  let buf1 := marshall_bool big wb v.isSome buf
  match v with
  | some x => marshall_arith big wv x buf1
  | none => buf1

/-- Model of `chops::fixed_size_byte_array<N>` (`marshall.hpp`, lines 220-267):
a `std::array<std::byte, N>` plus the logical size `m_size`. -/
structure fixed_size_byte_array (N : Nat) where
  m_buf : List Nat
  m_size : Nat
deriving DecidableEq

namespace fixed_size_byte_array

/-- The default constructor: value-initialized backing array, `m_size(0u)`. -/
def mk_default (N : Nat) : fixed_size_byte_array N :=
  ⟨List.replicate N 0, 0⟩

/-- The `size` method: returns `m_size`. -/
def size {N : Nat} (a : fixed_size_byte_array N) : Nat :=
  a.m_size

/-- The `resize` method: `assert(sz <= N); m_size = sz;` — the assertion failure
on `sz > N` is modelled as `none`. -/
def resize {N : Nat} (a : fixed_size_byte_array N) (sz : Nat) :
    Option (fixed_size_byte_array N) :=
  if sz ≤ N then some { a with m_size := sz } else none

/-- The `clear` method: `m_size = 0u`. -/
def clear {N : Nat} (a : fixed_size_byte_array N) : fixed_size_byte_array N :=
  { a with m_size := 0 }

/-- The `data` method: pointer to the beginning of the backing array. -/
def data {N : Nat} (a : fixed_size_byte_array N) : List Nat :=
  a.m_buf

end fixed_size_byte_array

/-!
Modelled from the spec: `chops::wait_queue` — the header `queue/wait_queue.hpp`
is not part of the source tree (only `src/test/queue/wait_queue_test.cpp` and the
demo programs are), so the queue is modelled from specification sections 3
("Queue element container", "Queue open/closed state") and 4.1.  A queue holds an
ordered sequence of elements, an open/closed flag (initially open) and a storage
discipline: `capacity = none` is the dynamic (deque-backed) variant, `capacity =
some c` the fixed-capacity ring variant, which on a push at capacity silently
overwrites (drops) the oldest element.  The operations below are the linearized
(under-the-lock) effects of the corresponding member functions.
-/

/-- Modelled from the spec: the `chops::wait_queue` state (elements in FIFO
order, closed flag, storage discipline). -/
structure wait_queue (α : Type) where
  elems : List α
  closed : Bool
  capacity : Option Nat
deriving DecidableEq

namespace wait_queue

/-- Modelled from the spec: `push(value) -> bool` — fails (returns `false`, no
insertion) iff the queue is closed; for dynamic storage appends; for
fixed-capacity storage at capacity, the oldest element is dropped and the new
one appended ("succeeds while open and overwrites the oldest element if at
capacity"). -/
def push {α : Type} (q : wait_queue α) (v : α) : Bool × wait_queue α :=
  if q.closed then (false, q)
  else
    match q.capacity with
    | none => (true, { q with elems := q.elems ++ [v] })
    | some c =>
      if q.elems.length = c then (true, { q with elems := (q.elems ++ [v]).tail })
      else (true, { q with elems := q.elems ++ [v] })

/-- Modelled from the spec: `try_pop() -> optional<value>` — returns and removes
the oldest element if non-empty, otherwise an empty result, regardless of the
open/closed state. -/
def try_pop {α : Type} (q : wait_queue α) : Option α × wait_queue α :=
  match q.elems with
  | [] => (none, q)
  | x :: rest => (some x, { q with elems := rest })

/-- Modelled from the spec: `close()` — transitions to closed. -/
def close {α : Type} (q : wait_queue α) : wait_queue α :=
  { q with closed := true }

/-- Modelled from the spec: `size()` — number of held elements. -/
def size {α : Type} (q : wait_queue α) : Nat :=
  q.elems.length

/-- Modelled from the spec: `empty()`. -/
def empty {α : Type} (q : wait_queue α) : Bool :=
  q.elems.isEmpty

/-- Modelled from the spec: `is_closed()`. -/
def is_closed {α : Type} (q : wait_queue α) : Bool :=
  q.closed

/-- A newly constructed dynamic (deque-backed) queue: empty and open. -/
def empty_dyn (α : Type) : wait_queue α :=
  ⟨[], false, none⟩

/-- A newly constructed fixed-capacity (ring-backed) queue of capacity `c`:
empty and open. -/
def empty_fixed (α : Type) (c : Nat) : wait_queue α :=
  ⟨[], false, some c⟩

/-- Push a list of values in order, keeping the final queue state. -/
def push_all {α : Type} : wait_queue α → List α → wait_queue α
  | q, [] => q
  | q, v :: vs => push_all (q.push v).2 vs

/-- Whether every push in `push_all` reported success. -/
def push_all_ok {α : Type} : wait_queue α → List α → Bool
  | _, [] => true
  | q, v :: vs => (q.push v).1 && push_all_ok (q.push v).2 vs

/-- Drain by repeated `try_pop`, with an explicit iteration bound. -/
def drain_aux {α : Type} : Nat → wait_queue α → List α
  | 0, _ => []
  | n + 1, q =>
    match q.try_pop with
    | (none, _) => []
    | (some x, q') => x :: drain_aux n q'

/-- Drain the queue: `try_pop` until empty, collecting the popped values in
order (`size` pops always suffice). -/
def drain {α : Type} (q : wait_queue α) : List α :=
  drain_aux q.size q

end wait_queue

/-- Modelled from the spec: one linearized queue operation in a concurrent
history — a producer's `push v` or a consumer's (`try_pop` / `wait_and_pop`)
pop.  Every concurrent execution orders its operations this way, since all
queue state is mutated under the queue's single internal lock (spec section 5). -/
inductive queue_event (α : Type) : Type
  | push (v : α)
  | pop
deriving DecidableEq

/-- Run a linearized history of queue operations, accumulating the values
delivered to consumers (in delivery order) in `log`. -/
def run_events {α : Type} : wait_queue α → List α → List (queue_event α) →
    wait_queue α × List α
  | q, log, [] => (q, log)
  | q, log, (queue_event.push v) :: es => run_events (q.push v).2 log es
  | q, log, queue_event.pop :: es =>
    match q.try_pop with
    | (none, q') => run_events q' log es
    | (some x, q') => run_events q' (log ++ [x]) es

/-- The values pushed by a history, in push order. -/
def pushed_values {α : Type} : List (queue_event α) → List α
  | [] => []
  | (queue_event.push v) :: es => v :: pushed_values es
  | queue_event.pop :: es => pushed_values es

/-- The suffix of `l` of length at most `c` (all of `l` when it is short enough):
the contents a capacity-`c` ring holds after absorbing `l`. -/
def drop_to_fit {α : Type} (c : Nat) (l : List α) : List α :=
  l.drop (l.length - c)

/-! Supporting lemmas about the byte-level codec. -/

theorem toBytesLE_length (n v : Nat) : (toBytesLE n v).length = n := by
  induction n generalizing v with
  | zero => rfl
  | succ n ih => simp [toBytesLE, ih]

theorem toBytesBE_length (n v : Nat) : (toBytesBE n v).length = n := by
  simp [toBytesBE, toBytesLE_length]

theorem mod_mul_decomp (v c : Nat) :
    v % (256 * c) = v % 256 + 256 * (v % (256 * c) / 256) := by
  have h1 : v % (256 * c) % 256 = v % 256 :=
    Nat.mod_mod_of_dvd v ⟨c, rfl⟩
  conv_lhs => rw [← Nat.mod_add_div (v % (256 * c)) 256]
  rw [h1]

theorem fromBytesLE_toBytesLE (n v : Nat) :
    fromBytesLE (toBytesLE n v) = v % 256 ^ n := by
  induction n generalizing v with
  | zero => simp [toBytesLE, fromBytesLE, Nat.mod_one]
  | succ n ih =>
    have hpow : (256 : Nat) ^ (n + 1) = 256 * 256 ^ n := by ring
    have h2 : v % (256 * 256 ^ n) / 256 = v / 256 % 256 ^ n :=
      Nat.mod_mul_right_div_self v 256 (256 ^ n)
    simp only [toBytesLE, fromBytesLE, ih, hpow]
    rw [mod_mul_decomp v (256 ^ n), h2]

theorem copy_noswap_eq (n : Nat) (p : List Nat) (h : p.length = n) :
    copy_noswap n p = p := by
  apply List.ext_getElem
  · simp [copy_noswap, h]
  · intro i h1 h2
    simp only [copy_noswap, List.getElem_map, List.getElem_range]
    exact p.getD_eq_getElem 0 h2

theorem copy_swap_eq (n : Nat) (p : List Nat) (h : p.length = n) :
    copy_swap n p = p.reverse := by
  apply List.ext_getElem
  · simp [copy_swap, h]
  · intro i h1 h2
    have hi : i < n := by simpa [copy_swap] using h1
    have hlt : n - 1 - i < p.length := by omega
    simp only [copy_swap, List.getElem_map, List.getElem_range,
      List.getElem_reverse]
    rw [p.getD_eq_getElem 0 hlt]
    congr 1
    omega

theorem append_val_eq (big : Bool) (n v : Nat) :
    append_val big n v = (toBytesBE n v, n) := by
  cases big with
  | true =>
    simp [append_val, native_bytes,
      copy_noswap_eq n (toBytesBE n v) (toBytesBE_length n v)]
  | false =>
    simp [append_val, native_bytes, toBytesBE,
      copy_swap_eq n (toBytesLE n v) (toBytesLE_length n v)]

theorem extract_val_toBytesBE (big : Bool) (n v : Nat) :
    extract_val big n (toBytesBE n v) = v % 256 ^ n := by
  cases big with
  | true =>
    rw [extract_val]
    simp only [if_true]
    rw [copy_noswap_eq n _ (toBytesBE_length n v)]
    simp [native_val, fromBytesBE, toBytesBE, fromBytesLE_toBytesLE]
  | false =>
    rw [extract_val]
    simp only [Bool.false_eq_true, if_false]
    rw [copy_swap_eq n _ (toBytesBE_length n v)]
    simp [native_val, toBytesBE, fromBytesLE_toBytesLE]

/-! Claim theorems for the byte-level codec and the variable length integer
codec. -/

/-- Claim C4: for every supported width and every representable value, `append_val`
writes exactly `sizeof(T)` bytes in big-endian order regardless of host
endianness, returns `sizeof(T)`, and `extract_val` applied to those bytes
returns the value again, on big-endian and little-endian hosts alike. -/
theorem append_extract_val_round_trip (big : Bool) (n v : Nat)
    (_hn : size_supported n = true) (hv : v < 256 ^ n) :
    (append_val big n v).1 = toBytesBE n v ∧
    (append_val big n v).1.length = n ∧
    (append_val big n v).2 = n ∧
    extract_val big n (append_val big n v).1 = v := by
  rw [append_val_eq]
  refine ⟨rfl, toBytesBE_length n v, rfl, ?_⟩
  rw [extract_val_toBytesBE, Nat.mod_eq_of_lt hv]

/-- Witness for C4: on a little-endian host, appending the 4-byte value
`0x04030201` yields the bytes `[0x04, 0x03, 0x02, 0x01]` and extracting them
returns the value. -/
theorem append_extract_val_round_trip_witness :
    (append_val false 4 0x04030201).1 = [0x04, 0x03, 0x02, 0x01] ∧
    (append_val false 4 0x04030201).2 = 4 ∧
    extract_val false 4 (append_val false 4 0x04030201).1 = 0x04030201 := by
  have h := append_extract_val_round_trip false 4 0x04030201 (by decide) (by decide)
  refine ⟨?_, h.2.2.1, h.2.2.2⟩
  rw [h.1]
  decide

/-- Claim C2: the `detect_big_endian` of `extract_append.hpp` returns `true` exactly
on a big-endian host, but the copy in `byte_swap.hpp` (which compares the byte
at offset 3 of the stored pattern `0xDDCCBBAA` with `0xDD` instead of `0xAA`)
returns the opposite on every host: it is `false` on a big-endian host and
`true` on a little-endian one. -/
theorem detect_big_endian_versions_disagree :
    (∀ big : Bool, detect_big_endian big = big) ∧
    detect_big_endian_byte_swap true = false ∧
    detect_big_endian_byte_swap false = true := by
  refine ⟨?_, by decide, by decide⟩
  intro big
  cases big <;> decide

/-- Counterexample for C3: instantiating the codec at a floating-point type is
not rejected — `float` and `double` pass both `static_assert` guards of
`extract_val` / `append_val`, because `detail::is_arithmetic_or_byte` is built
on `std::is_arithmetic`, which includes the floating-point types. -/
theorem extract_val_accepts_floating_point :
    extract_append_compiles cpp_type.tfloat = true ∧
    extract_append_compiles cpp_type.tdouble = true := by
  decide

/-- Claim C3, amended: `append_val` and `extract_val` are restricted at compile /
definition time (by `static_assert`, not a runtime check) to arithmetic types —
integral or floating-point — and `std::byte`, of a supported size; non-arithmetic
class types are rejected, while floating-point types are accepted. -/
theorem extract_append_compile_guard_characterization :
    (∀ t : cpp_type,
      extract_append_compiles t = true ↔
        ((is_integral t = true ∨ is_floating_point t = true ∨ t = cpp_type.tbyte) ∧
          size_supported (sizeof_t t) = true)) ∧
    extract_append_compiles cpp_type.tstruct = false := by
  refine ⟨?_, by decide⟩
  intro t
  cases t <;> decide

/-- Claim C7: the boundary encodings of the variable length integer codec —
`0x7F` encodes to the single byte `0x7F`; `0x80` encodes to the two bytes
`[0x80, 0x01]`; `0xCAFE` encodes to the three bytes `[0xFE, 0x95, 0x03]`; and
`extract_var_int` applied to those three bytes returns `51966`. -/
theorem append_var_int_boundary_encodings :
    append_var_int 0x7F = [0x7F] ∧
    append_var_int 0x80 = [0x80, 0x01] ∧
    append_var_int 0xCAFE = [0xFE, 0x95, 0x03] ∧
    extract_var_int_u32 [0xFE, 0x95, 0x03] = 51966 := by
  refine ⟨by decide, by decide, by decide, by decide⟩

/-! Supporting lemmas about the wait queue model. -/

theorem push_snd_capacity {α : Type} (q : wait_queue α) (v : α) :
    ((q.push v).2).capacity = q.capacity := by
  rw [wait_queue.push]
  split
  · rfl
  · split
    · rfl
    · split <;> rfl

theorem push_snd_closed {α : Type} (q : wait_queue α) (v : α) :
    ((q.push v).2).closed = q.closed := by
  rw [wait_queue.push]
  split
  · rfl
  · split
    · rfl
    · split <;> rfl

theorem push_fst_true {α : Type} (q : wait_queue α) (v : α) (h : q.closed = false) :
    (q.push v).1 = true := by
  rw [wait_queue.push]
  split
  · case isTrue hcl => rw [h] at hcl; cases hcl
  · split
    · rfl
    · split <;> rfl

theorem try_pop_snd_closed {α : Type} (q : wait_queue α) :
    ((q.try_pop).2).closed = q.closed := by
  rcases q with ⟨l, cl, cap⟩
  cases l <;> rfl

theorem try_pop_snd_capacity {α : Type} (q : wait_queue α) :
    ((q.try_pop).2).capacity = q.capacity := by
  rcases q with ⟨l, cl, cap⟩
  cases l <;> rfl

theorem drop_to_fit_of_le {α : Type} (c : Nat) (l : List α) (h : l.length ≤ c) :
    drop_to_fit c l = l := by
  simp [drop_to_fit, Nat.sub_eq_zero_of_le h]

theorem drop_to_fit_drop {α : Type} (c k : Nat) (x : List α) (h : c + k ≤ x.length) :
    drop_to_fit c (x.drop k) = drop_to_fit c x := by
  simp only [drop_to_fit, List.drop_drop, List.length_drop]
  congr 1
  omega

theorem push_all_elems_fixed {α : Type} (vs : List α) (q : wait_queue α) (c : Nat)
    (hcap : q.capacity = some c) (hcl : q.closed = false)
    (hlen : q.elems.length ≤ c) :
    (wait_queue.push_all q vs).elems = drop_to_fit c (q.elems ++ vs) := by
  induction vs generalizing q with
  | nil =>
    simpa [wait_queue.push_all] using (drop_to_fit_of_le c q.elems hlen).symm
  | cons v vs ih =>
    rcases q with ⟨l, cl, cap⟩
    simp only [wait_queue.capacity] at hcap
    simp only [wait_queue.closed] at hcl
    simp only [wait_queue.elems] at hlen
    subst hcap
    subst hcl
    rw [wait_queue.push_all]
    by_cases h : l.length = c
    · have hstep : ((wait_queue.mk l false (some c)).push v).2 =
          wait_queue.mk ((l ++ [v]).tail) false (some c) := by
        simp [wait_queue.push, h]
      rw [hstep, ih _ rfl rfl (by simp; omega)]
      have h1 : (l ++ [v]).tail = (l ++ [v]).drop 1 := by
        rw [List.drop_one]
      rw [h1, ← List.drop_append_of_le_length (by simp)]
      rw [drop_to_fit_drop c 1 ((l ++ [v]) ++ vs) (by simp; omega)]
      simp
    · have hstep : ((wait_queue.mk l false (some c)).push v).2 =
          wait_queue.mk (l ++ [v]) false (some c) := by
        simp [wait_queue.push, h]
      rw [hstep, ih _ rfl rfl (by simp; omega)]
      simp

theorem push_all_ok_of_open {α : Type} (vs : List α) (q : wait_queue α)
    (hcl : q.closed = false) :
    wait_queue.push_all_ok q vs = true := by
  induction vs generalizing q with
  | nil => rfl
  | cons v vs ih =>
    rw [wait_queue.push_all_ok, push_fst_true q v hcl,
      ih _ (by rw [push_snd_closed]; exact hcl)]
    rfl

theorem drain_aux_eq {α : Type} (n : Nat) (q : wait_queue α)
    (h : q.elems.length ≤ n) :
    wait_queue.drain_aux n q = q.elems := by
  induction n generalizing q with
  | zero =>
    have h0 : q.elems = [] := List.eq_nil_of_length_eq_zero (Nat.le_zero.mp h)
    simp [wait_queue.drain_aux, h0]
  | succ n ih =>
    rcases q with ⟨l, cl, cap⟩
    cases l with
    | nil => rfl
    | cons x rest =>
      have hr : (wait_queue.mk rest cl cap : wait_queue α).elems.length ≤ n := by
        simpa using Nat.le_of_succ_le_succ h
      simp [wait_queue.drain_aux, wait_queue.try_pop, ih _ hr]

theorem drain_eq {α : Type} (q : wait_queue α) : q.drain = q.elems :=
  drain_aux_eq q.size q (le_refl _)

theorem run_events_invariant {α : Type} (es : List (queue_event α))
    (q : wait_queue α) (log : List α)
    (hcap : q.capacity = none) (hcl : q.closed = false) :
    (run_events q log es).2 ++ (run_events q log es).1.elems =
      (log ++ q.elems) ++ pushed_values es := by
  induction es generalizing q log with
  | nil => simp [run_events, pushed_values]
  | cons e es ih =>
    rcases q with ⟨l, cl, cap⟩
    simp only [wait_queue.capacity] at hcap
    simp only [wait_queue.closed] at hcl
    subst hcap
    subst hcl
    cases e with
    | push v =>
      have hstep : ((wait_queue.mk l false none).push v).2 =
          wait_queue.mk (l ++ [v]) false none := by
        simp [wait_queue.push]
      rw [run_events, hstep, ih _ _ rfl rfl]
      simp [pushed_values]
    | pop =>
      cases l with
      | nil =>
        rw [run_events]
        have htp : (wait_queue.mk ([] : List α) false none).try_pop =
            (none, wait_queue.mk ([] : List α) false none) := rfl
        rw [htp]
        rw [ih _ _ rfl rfl]
        simp [pushed_values]
      | cons x rest =>
        rw [run_events]
        have htp : (wait_queue.mk (x :: rest) false none).try_pop =
            (some x, wait_queue.mk rest false none) := rfl
        rw [htp]
        rw [ih _ _ rfl rfl]
        simp [pushed_values]

/-! Claim theorems for the marshalling façade and the wait queue. -/

/-- Claim C8: marshalling a present optional with a 1-byte presence width and a 4-byte
payload width appends exactly 5 bytes — the presence byte `1` followed by the
4-byte big-endian payload — and marshalling an absent optional appends exactly
one byte, the zero presence flag, with no payload bytes, on either host
endianness. -/
theorem marshall_optional_byte_counts (big : Bool) (x : Nat) (buf : List Nat) :
    marshall_optional big 1 4 (some x) buf =
      (buf ++ [1]) ++ toBytesBE 4 (x % 256 ^ 4) ∧
    (marshall_optional big 1 4 (some x) buf).length = buf.length + 5 ∧
    marshall_optional big 1 4 none buf = buf ++ [0] ∧
    (marshall_optional big 1 4 none buf).length = buf.length + 1 := by
  have h1 : (append_val big 1 (1 % 256 ^ 1)).1 = [1] := by
    rw [append_val_eq]; decide
  have h0 : (append_val big 1 (0 % 256 ^ 1)).1 = [0] := by
    rw [append_val_eq]; decide
  have hsome : marshall_optional big 1 4 (some x) buf =
      (buf ++ [1]) ++ toBytesBE 4 (x % 256 ^ 4) := by
    simp only [marshall_optional, marshall_bool, marshall_arith, Option.isSome,
      if_true, h1]
    rw [append_val_eq]
  have hnone : marshall_optional big 1 4 none buf = buf ++ [0] := by
    simp only [marshall_optional, marshall_bool, marshall_arith, Option.isSome,
      Bool.false_eq_true, if_false, h0]
  refine ⟨hsome, ?_, hnone, ?_⟩
  · rw [hsome]
    simp [toBytesBE_length]
  · rw [hnone]
    simp

/-- Claim C10: `fixed_size_byte_array<N>` maintains `size() <= N` — the size is 0
after default construction, `resize(sz)` with `sz <= N` sets the size to exactly
`sz`, `clear()` resets the size to 0, `resize` past the capacity is an assertion
failure (no state change, modelled as `none`) rather than silent growth, and no
successful operation leaves `size() > N`. -/
theorem fixed_size_byte_array_size_invariant (N : Nat) :
    (fixed_size_byte_array.mk_default N).size = 0 ∧
    (∀ (a : fixed_size_byte_array N) (sz : Nat), sz ≤ N →
      ∃ a', a.resize sz = some a' ∧ a'.size = sz) ∧
    (∀ (a : fixed_size_byte_array N) (sz : Nat), N < sz → a.resize sz = none) ∧
    (∀ a : fixed_size_byte_array N, a.clear.size = 0) ∧
    (∀ (a : fixed_size_byte_array N) (sz : Nat) (a' : fixed_size_byte_array N),
      a.resize sz = some a' → a'.size ≤ N) := by
  refine ⟨rfl, ?_, ?_, fun a => rfl, ?_⟩
  · intro a sz h
    exact ⟨{ a with m_size := sz }, by simp [fixed_size_byte_array.resize, h], rfl⟩
  · intro a sz h
    simp [fixed_size_byte_array.resize]
    omega
  · intro a sz a' h
    rw [fixed_size_byte_array.resize] at h
    split at h
    · cases h
      simpa [fixed_size_byte_array.size] using (by assumption : sz ≤ N)
    · cases h

/-- Witness for C10 at `N = 3`: default size 0, `resize 2` succeeds with size 2,
`resize 4` is the assertion failure. -/
theorem fixed_size_byte_array_size_invariant_witness :
    (fixed_size_byte_array.mk_default 3).size = 0 ∧
    (∃ a', (fixed_size_byte_array.mk_default 3).resize 2 = some a' ∧
      a'.size = 2) ∧
    (fixed_size_byte_array.mk_default 3).resize 4 = none := by
  have h := fixed_size_byte_array_size_invariant 3
  exact ⟨h.1, h.2.1 _ 2 (by decide), h.2.2.1 _ 4 (by decide)⟩

/-- Claim C5: pushing onto a closed queue returns `false`, inserts nothing (the whole
state is unchanged), and leaves `size()` and `empty()` unchanged — for every
element and for both the dynamic and the fixed-capacity storage discipline
(the `capacity` field of `q` is arbitrary). -/
theorem push_on_closed_queue_rejected {α : Type} (q : wait_queue α) (v : α)
    (h : q.is_closed = true) :
    (q.push v).1 = false ∧ (q.push v).2 = q ∧
    (q.push v).2.size = q.size ∧ (q.push v).2.empty = q.empty := by
  have hc : q.closed = true := h
  simp [wait_queue.push, hc]

/-- Witness for C5: a closed fixed-capacity queue and a closed dynamic queue
both reject a push unchanged. -/
theorem push_on_closed_queue_rejected_witness :
    ((⟨[3, 4], true, some 2⟩ : wait_queue Nat).push 9).1 = false ∧
    ((⟨[3, 4], true, some 2⟩ : wait_queue Nat).push 9).2 =
      (⟨[3, 4], true, some 2⟩ : wait_queue Nat) ∧
    ((⟨[3, 4], true, none⟩ : wait_queue Nat).push 9).1 = false ∧
    ((⟨[3, 4], true, none⟩ : wait_queue Nat).push 9).2.size =
      (⟨[3, 4], true, none⟩ : wait_queue Nat).size := by
  have h1 := push_on_closed_queue_rejected (⟨[3, 4], true, some 2⟩ : wait_queue Nat) 9 rfl
  have h2 := push_on_closed_queue_rejected (⟨[3, 4], true, none⟩ : wait_queue Nat) 9 rfl
  exact ⟨h1.1, h1.2.1, h2.1, h2.2.2.1⟩

/-- Claim C6: pushing `c + k` values (`k > 0`) into an initially empty open
fixed-capacity queue of capacity `c` and then draining yields exactly the last
`c` values pushed, in push order (the first `k` are silently dropped), and every
push reports success. -/
theorem ring_overwrite_drains_last_values (c k : Nat) (vs : List Nat)
    (hlen : vs.length = c + k) (_hk : 0 < k) :
    wait_queue.drain (wait_queue.push_all (wait_queue.empty_fixed Nat c) vs) =
      vs.drop k ∧
    wait_queue.push_all_ok (wait_queue.empty_fixed Nat c) vs = true := by
  constructor
  · rw [drain_eq,
      push_all_elems_fixed vs _ c rfl rfl (by simp [wait_queue.empty_fixed])]
    have hnil : (wait_queue.empty_fixed Nat c).elems = [] := rfl
    rw [hnil]
    simp only [List.nil_append, drop_to_fit]
    congr 1
    omega
  · exact push_all_ok_of_open vs _ rfl

/-- Witness for C6 at capacity 3 with 5 pushes: draining yields the last three
values `[3, 4, 5]`, and all pushes reported success. -/
theorem ring_overwrite_drains_last_values_witness :
    wait_queue.drain
      (wait_queue.push_all (wait_queue.empty_fixed Nat 3) [1, 2, 3, 4, 5]) =
      [3, 4, 5] ∧
    wait_queue.push_all_ok (wait_queue.empty_fixed Nat 3) [1, 2, 3, 4, 5] = true := by
  have h := ring_overwrite_drains_last_values 3 2 [1, 2, 3, 4, 5] rfl (by decide)
  exact ⟨h.1.trans (by decide), h.2⟩

/-- Claim C9: in any linearized history of concurrent pushes and pops on an open
dynamic queue, once the queue has been drained the delivered values are exactly
the pushed values (here even in order, since the model linearizes a single FIFO);
in particular every value is delivered exactly as often as it was pushed — no
loss, no duplication — and when the pushed tags are distinct, each is delivered
exactly once. -/
theorem concurrent_push_pop_no_loss_no_duplication (es : List (queue_event Nat))
    (hdrained : (run_events (wait_queue.empty_dyn Nat) [] es).1.elems = []) :
    (run_events (wait_queue.empty_dyn Nat) [] es).2 = pushed_values es ∧
    (∀ t : Nat, ((run_events (wait_queue.empty_dyn Nat) [] es).2).count t =
      (pushed_values es).count t) ∧
    ((pushed_values es).Nodup → ∀ t ∈ pushed_values es,
      ((run_events (wait_queue.empty_dyn Nat) [] es).2).count t = 1) := by
  have hinv := run_events_invariant es (wait_queue.empty_dyn Nat) [] rfl rfl
  rw [hdrained] at hinv
  simp only [List.append_nil, List.nil_append] at hinv
  have hlog : (run_events (wait_queue.empty_dyn Nat) [] es).2 = pushed_values es := by
    simpa [wait_queue.empty_dyn] using hinv
  refine ⟨hlog, fun t => by rw [hlog], ?_⟩
  intro hnd t ht
  rw [hlog]
  exact List.count_eq_one_of_mem hnd ht

/-- Witness for C9: a concrete interleaving of three pushes and three pops that
drains the queue delivers exactly the pushed tags `[5, 7, 9]`, each once. -/
theorem concurrent_push_pop_no_loss_no_duplication_witness :
    (run_events (wait_queue.empty_dyn Nat) []
      [queue_event.push 5, queue_event.pop, queue_event.push 7,
       queue_event.push 9, queue_event.pop, queue_event.pop]).2 = [5, 7, 9] ∧
    ((run_events (wait_queue.empty_dyn Nat) []
      [queue_event.push 5, queue_event.pop, queue_event.push 7,
       queue_event.push 9, queue_event.pop, queue_event.pop]).2).count 7 = 1 := by
  have h := concurrent_push_pop_no_loss_no_duplication
    [queue_event.push 5, queue_event.pop, queue_event.push 7,
     queue_event.push 9, queue_event.pop, queue_event.pop] (by decide)
  exact ⟨h.1.trans (by decide), h.2.2 (by decide) 7 (by decide)⟩

/-- Claim C1: the round trip fails for `std::uint64_t`.  `append_var_int` encodes
`v = 0x80000000` into five bytes, but `extract_var_int<std::uint64_t>` applied
to exactly those five bytes returns `0xFFFFFFFF80000000`, not `v`: the term
`(input_ptr[i] & 127) << (7 * i)` is computed in (32-bit) `int`, so at `i = 4`
the group `8 << 28` wraps to `INT_MIN` and is sign-extended when OR'd into the
64-bit result.  The same five bytes do round-trip at `std::uint32_t`, where the
conversion of the term is modular at 32 bits. -/
theorem extract_var_int_u64_sign_extension_bug :
    append_var_int 0x80000000 = [0x80, 0x80, 0x80, 0x80, 0x08] ∧
    extract_var_int_u64 [0x80, 0x80, 0x80, 0x80, 0x08] = 0xFFFFFFFF80000000 ∧
    0xFFFFFFFF80000000 ≠ (0x80000000 : Nat) ∧
    extract_var_int_u32 [0x80, 0x80, 0x80, 0x80, 0x08] = 0x80000000 := by
  refine ⟨by decide, ?_, by decide, ?_⟩
  · rfl
  · rfl

end chops
